import Mathlib

/-!
# Reference answers: the length converter (`Lab02.cpp`) and the read / sort / average
program (`assignment1_answer.cpp`)

Both programs are single `main` functions.  They are embedded here as pure functions:

* `double` values are modelled exactly: a finite IEEE-754 binary64 number is the rational
  it denotes, every arithmetic operation rounds its exact result to the nearest double
  (ties to even, the default rounding mode, each operation rounded on its own), and a
  result that is not a finite double is `none`;
* `int` values are mathematical integers together with the 32-bit range test `fitsInt`;
  the counter `count` wraps modulo `2 ^ 32`;
* `std::cin` is the list of integer tokens still to be read, `std::vector<int>` is a list.
-/

/-! ## IEEE-754 binary64 arithmetic -/

namespace Binary64

/-- Nearest integer to `x`, a tie going to the even neighbour. -/
def roundEven (x : ℚ) : ℤ :=
  if x - ⌊x⌋ < 1 / 2 then ⌊x⌋
  else if 1 / 2 < x - ⌊x⌋ then ⌊x⌋ + 1
  else if ⌊x⌋ % 2 = 0 then ⌊x⌋ else ⌊x⌋ + 1

/-- Binade of `x`: the exponent `e` with `2 ^ e ≤ |x| < 2 ^ (e + 1)`, and `-1022` (the
exponent of the subnormal numbers) for every smaller `x`. -/
def expo (x : ℚ) : ℤ := if x = 0 then -1022 else max (Int.log 2 |x|) (-1022)

/-- Distance between neighbouring doubles in the binade of `x` (53 significant bits). -/
def ulp (x : ℚ) : ℚ := 2 ^ (expo x - 52)

/-- Round to nearest, ties to even, with unbounded exponent range above. -/
def roundNearest (x : ℚ) : ℚ := roundEven (x / ulp x) * ulp x

/-- Result of an operation whose exact value is `x`: the nearest double, or `none` when
that is no finite double (the operation overflows to an infinity). -/
def round (x : ℚ) : Option ℚ :=
  if |roundNearest x| < 2 ^ 1024 then some (roundNearest x) else none

/-- Conversion of an `int` to `double`. -/
def ofInt (n : Int) : Option ℚ := round n

/-- Conversion of a `size_t` to `double`. -/
def ofNat (n : Nat) : Option ℚ := round n

/-- Operator `+` on two finite doubles. -/
def add (x y : ℚ) : Option ℚ := round (x + y)

/-- Operator `-` on two finite doubles. -/
def sub (x y : ℚ) : Option ℚ := round (x - y)

/-- Operator `*` on two finite doubles. -/
def mul (x y : ℚ) : Option ℚ := round (x * y)

/-- Operator `/` on two finite doubles; a zero divisor gives an infinity or a NaN. -/
def div (x y : ℚ) : Option ℚ := if y = 0 then none else round (x / y)

/-- A rational is a finite double when rounding leaves it unchanged. -/
def IsDouble (x : ℚ) : Prop := round x = some x

end Binary64

/-! ## `Lab02.cpp`: feet to yards -/

namespace Lab02

/-- Line 58, `len_yards = 1.0 / 3 * len_feet;`: the quotient `1.0 / 3` is formed first,
then multiplied by the length that was read. -/
def len_yards (len_feet : ℚ) : Option ℚ :=
  (Binary64.div 1 3).bind fun third => Binary64.mul third len_feet

/-- The literal `.000000000000001` of line 73, converted to `double`. -/
def epsilon : Option ℚ := Binary64.round (1 / 10 ^ 15)

/-- Line 73, the expression under `test`: `fabs(len_yards-len_feet/3)<.000000000000001`.
A comparison with an operand that is not a number is false. -/
def test (len_feet : ℚ) : Bool :=
  match len_yards len_feet, Binary64.div len_feet 3, epsilon with
  | some y, some q, some eps =>
    match Binary64.sub y q with
    | some d => decide (|d| < eps)
    | none => false
  | _, _, _ => false

end Lab02

/-! ## `assignment1_answer.cpp`: read, sort, average -/

namespace Assignment1

/-- Range of the 32-bit type `int`. -/
def fitsInt (t : Int) : Bool := decide (-2 ^ 31 ≤ t) && decide (t < 2 ^ 31)

/-- Two's complement wrap-around of `int` arithmetic. -/
def wrapInt (n : Int) : Int := (n + 2 ^ 31) % 2 ^ 32 - 2 ^ 31

/-- Variables `numbers` and `count` of `main`. -/
structure ReadState where
  numbers : List Int
  count : Int
deriving DecidableEq, Repr

/-- Line 25, the condition `cin >> num && num != -999` on the next token `t`: the
extraction succeeds when `t` is in the range of `int`, and the value is then compared
with the sentinel. -/
def loopCondition (t : Int) : Bool := fitsInt t && t != -999

/-- Lines 25-28, `while (cin >> num && num != -999)`.  The extraction fails when no token
is left and when the token is outside the range of `int`; either failure and the sentinel
end the loop, and nothing after that point is read. -/
def readLoop : List Int → ReadState → ReadState
  | [], st => st
  | t :: rest, st =>
    if loopCondition t then
      readLoop rest ⟨st.numbers ++ [t], wrapInt (st.count + 1)⟩
    else st

/-- State of `main` when the reading loop has ended. -/
def readNumbers (input : List Int) : ReadState := readLoop input ⟨[], 0⟩

/-- Insertion of one value into an ascending list, comparing with `<` as `std::sort` does. -/
def insert (x : Int) : List Int → List Int
  | [] => [x]
  | y :: ys => if y < x then y :: insert x ys else x :: y :: ys

/-- Line 36, `sort(numbers.begin(), numbers.end())`.  The library call is specified by its
result only: the range in ascending order of `operator<`, holding the values it held
before.  For `int` that result is unique (`sort_unique` below); it is computed here by
insertion. -/
def sort : List Int → List Int
  | [] => []
  | x :: xs => insert x (sort xs)

/-- Lines 49-52, `double sum = 0; for (int num : numbers) sum += num;`, started from the
current value of `sum`. -/
def sumLoop : List Int → Option ℚ → Option ℚ
  | [], sum => sum
  | num :: rest, sum =>
    sumLoop rest (sum.bind fun s => (Binary64.ofInt num).bind fun x => Binary64.add s x)

/-- Line 53, `double average = sum / numbers.size();`. -/
def average (numbers : List Int) : Option ℚ :=
  (sumLoop numbers (some 0)).bind fun sum =>
    (Binary64.ofNat numbers.length).bind fun size => Binary64.div sum size

/-- What `main` prints. -/
inductive Outcome where
  /-- Line 31: "No numbers entered." -/
  | noNumbers
  /-- Lines 39-56: the sorted numbers, "Average: " and "Count: ". -/
  | report (sortedValues : List Int) (average : Option ℚ) (count : Nat)
deriving DecidableEq, Repr

/-- Lines 30-56 of `main`, from the vector that was read. -/
def analyze (numbers : List Int) : Outcome :=
  if numbers.isEmpty then Outcome.noNumbers
  else Outcome.report (sort numbers) (average (sort numbers)) (sort numbers).length

/-- The whole of `main` on the integer tokens of standard input. -/
def main (input : List Int) : Outcome := analyze (readNumbers input).numbers

end Assignment1

/-! ## Sorting -/

namespace Assignment1

theorem insert_perm (x : Int) (l : List Int) : (insert x l).Perm (x :: l) := by
  induction l with
  | nil => exact List.Perm.refl _
  | cons y ys ih =>
    unfold insert
    split
    · exact (List.Perm.cons y ih).trans (List.Perm.swap x y ys)
    · exact List.Perm.refl _

theorem sort_perm (l : List Int) : (sort l).Perm l := by
  induction l with
  | nil => exact List.Perm.refl _
  | cons x xs ih => exact (insert_perm x (sort xs)).trans (List.Perm.cons x ih)

theorem insert_sorted (x : Int) (l : List Int) (h : l.Sorted (· ≤ ·)) :
    (insert x l).Sorted (· ≤ ·) := by
  induction l with
  | nil => simp [insert]
  | cons y ys ih =>
    have hy : ∀ z ∈ ys, y ≤ z := List.rel_of_sorted_cons h
    have hys : ys.Sorted (· ≤ ·) := List.Sorted.of_cons h
    unfold insert
    split
    · rename_i hlt
      refine List.sorted_cons.mpr ⟨?_, ih hys⟩
      intro z hz
      rcases List.mem_cons.mp ((insert_perm x ys).subset hz) with rfl | hz
      · exact le_of_lt hlt
      · exact hy z hz
    · rename_i hge
      have hxy : x ≤ y := not_lt.mp hge
      refine List.sorted_cons.mpr ⟨?_, h⟩
      intro z hz
      rcases List.mem_cons.mp hz with rfl | hz
      · exact hxy
      · exact le_trans hxy (hy z hz)

theorem sort_sorted (l : List Int) : (sort l).Sorted (· ≤ ·) := by
  induction l with
  | nil => simp [sort]
  | cons x xs ih => exact insert_sorted x (sort xs) ih

/-- Any ascending rearrangement of `l` is `sort l`: the outcome of `std::sort` on `int`
does not depend on the algorithm behind it. -/
theorem sort_unique (l s : List Int) (hp : s.Perm l) (hs : s.Sorted (· ≤ ·)) :
    s = sort l :=
  List.eq_of_perm_of_sorted (hp.trans (sort_perm l).symm) hs (sort_sorted l)

theorem sort_of_sorted (l : List Int) (h : l.Sorted (· ≤ ·)) : sort l = l :=
  (sort_unique l l (List.Perm.refl l) h).symm

theorem sort_length (l : List Int) : (sort l).length = l.length :=
  (sort_perm l).length_eq

theorem sort_eq_nil (l : List Int) : sort l = [] ↔ l = [] := by
  constructor
  · intro h
    have := sort_length l
    rw [h] at this
    exact List.length_eq_zero.mp this.symm
  · rintro rfl
    rfl

theorem sort_congr {l₁ l₂ : List Int} (h : l₁.Perm l₂) : sort l₁ = sort l₂ :=
  sort_unique l₂ (sort l₁) ((sort_perm l₁).trans h) (sort_sorted l₁)

theorem replicate_sorted (n : Nat) (v : Int) : (List.replicate n v).Sorted (· ≤ ·) := by
  induction n with
  | zero => exact List.sorted_nil
  | succ k ih =>
    rw [List.replicate_succ]
    refine List.sorted_cons.mpr ⟨?_, ih⟩
    intro z hz
    rw [List.eq_of_mem_replicate hz]

theorem head_le_of_sorted (s : List Int) (hs : s.Sorted (· ≤ ·)) (a : Int)
    (ha : s.head? = some a) : ∀ x ∈ s, a ≤ x := by
  obtain ⟨ys, rfl⟩ := List.head?_eq_some_iff.mp ha
  intro x hx
  rcases List.mem_cons.mp hx with rfl | hx
  · exact le_refl _
  · exact List.rel_of_sorted_cons hs x hx

theorem le_getLast_of_sorted (s : List Int) (hs : s.Sorted (· ≤ ·)) (b : Int)
    (hb : s.getLast? = some b) : ∀ x ∈ s, x ≤ b := by
  obtain ⟨ys, rfl⟩ := List.getLast?_eq_some_iff.mp hb
  intro x hx
  rcases List.mem_append.mp hx with hx | hx
  · exact (List.pairwise_append.mp hs).2.2 x hx b (List.mem_singleton_self b)
  · rw [List.mem_singleton.mp hx]

end Assignment1

/-! ## Rounding to the nearest integer -/

namespace Binary64

theorem roundEven_intCast (n : ℤ) : roundEven (n : ℚ) = n := by
  simp [roundEven]

theorem floor_le_roundEven (x : ℚ) : ⌊x⌋ ≤ roundEven x := by
  unfold roundEven
  split_ifs <;> omega

theorem le_roundEven (x : ℚ) (k : ℤ) (h : (k : ℚ) ≤ x) : k ≤ roundEven x :=
  le_trans (Int.le_floor.mpr h) (floor_le_roundEven x)

theorem roundEven_le (x : ℚ) (k : ℤ) (h : x ≤ (k : ℚ)) : roundEven x ≤ k := by
  have hfl : (⌊x⌋ : ℚ) ≤ x := Int.floor_le x
  have h0 : ⌊x⌋ ≤ k := by exact_mod_cast le_trans hfl h
  have hstep : ¬ (x - ⌊x⌋ < 1 / 2) → ⌊x⌋ + 1 ≤ k := by
    intro hf
    have hlt : (⌊x⌋ : ℚ) < k := by linarith
    have : ⌊x⌋ < k := by exact_mod_cast hlt
    omega
  unfold roundEven
  split_ifs with h1 h2 h3
  · exact h0
  · exact hstep h1
  · exact h0
  · exact hstep h1

theorem roundEven_eq_of_near (x : ℚ) (n : ℤ) (h : |x - n| < 1 / 2) : roundEven x = n := by
  obtain ⟨hlo, hhi⟩ := abs_lt.mp h
  by_cases hx : (n : ℚ) ≤ x
  · have hf : ⌊x⌋ = n := Int.floor_eq_iff.mpr ⟨hx, by linarith⟩
    unfold roundEven
    rw [hf, if_pos (by linarith)]
  · have hf : ⌊x⌋ = n - 1 := Int.floor_eq_iff.mpr ⟨by push_cast; linarith, by push_cast; linarith⟩
    unfold roundEven
    rw [hf, if_neg (by push_cast; linarith), if_pos (by push_cast; linarith)]
    ring

theorem roundEven_tie (x : ℚ) (n : ℤ) (h : x = n + 1 / 2) :
    roundEven x = if n % 2 = 0 then n else n + 1 := by
  have hf : ⌊x⌋ = n := Int.floor_eq_iff.mpr ⟨by linarith, by linarith⟩
  unfold roundEven
  rw [hf, if_neg (by linarith), if_neg (by linarith)]

theorem abs_roundEven_sub_le (x : ℚ) : |(roundEven x : ℚ) - x| ≤ 1 / 2 := by
  have h1 : (⌊x⌋ : ℚ) ≤ x := Int.floor_le x
  have h2 : x < (⌊x⌋ : ℚ) + 1 := Int.lt_floor_add_one x
  rw [abs_le]
  unfold roundEven
  split_ifs with c1 c2 c3
  · constructor <;> linarith
  · constructor <;> push_cast <;> linarith
  · constructor <;> linarith
  · constructor <;> push_cast <;> linarith

theorem roundEven_nearest (y : ℚ) (n : ℤ) : |(roundEven y : ℚ) - y| ≤ |(n : ℚ) - y| := by
  have h1 : (⌊y⌋ : ℚ) ≤ y := Int.floor_le y
  have h2 : y < (⌊y⌋ : ℚ) + 1 := Int.lt_floor_add_one y
  rcases le_or_lt n ⌊y⌋ with hle | hgt
  · have hq : (n : ℚ) ≤ ⌊y⌋ := by exact_mod_cast hle
    have hb : y - ⌊y⌋ ≤ |(n : ℚ) - y| := by
      rw [abs_sub_comm]
      exact le_trans (by linarith) (le_abs_self _)
    unfold roundEven
    split_ifs <;> rw [abs_le] <;> constructor <;> push_cast <;> linarith
  · have hq : (⌊y⌋ : ℚ) + 1 ≤ n := by exact_mod_cast hgt
    have hb : ⌊y⌋ + 1 - y ≤ |(n : ℚ) - y| := le_trans (by linarith) (le_abs_self _)
    unfold roundEven
    split_ifs <;> rw [abs_le] <;> constructor <;> push_cast <;> linarith

end Binary64

/-! ## Binades -/

namespace Binary64

theorem expo_ge (x : ℚ) : -1022 ≤ expo x := by
  unfold expo
  split_ifs
  · exact le_refl _
  · exact le_max_right _ _

theorem expo_eq (x : ℚ) (e : ℤ) (he : -1022 ≤ e) (h1 : (2 : ℚ) ^ e ≤ |x|)
    (h2 : |x| < (2 : ℚ) ^ (e + 1)) : expo x = e := by
  have hpos : 0 < |x| := lt_of_lt_of_le (by positivity) h1
  have hx : x ≠ 0 := abs_pos.mp hpos
  have hl1 : e ≤ Int.log 2 |x| :=
    (Int.zpow_le_iff_le_log (by norm_num) hpos).mp (by exact_mod_cast h1)
  have hl2 : Int.log 2 |x| < e + 1 :=
    (Int.lt_zpow_iff_log_lt (by norm_num) hpos).mp (by exact_mod_cast h2)
  unfold expo
  rw [if_neg hx]
  have : Int.log 2 |x| = e := by omega
  rw [this]
  exact max_eq_left he

theorem expo_le (x : ℚ) (e : ℤ) (he : -1022 ≤ e) (h : |x| < (2 : ℚ) ^ (e + 1)) :
    expo x ≤ e := by
  unfold expo
  split_ifs with hx
  · exact he
  · have hpos : 0 < |x| := abs_pos.mpr hx
    have hl : Int.log 2 |x| < e + 1 :=
      (Int.lt_zpow_iff_log_lt (by norm_num) hpos).mp (by exact_mod_cast h)
    exact max_le (by omega) he

theorem abs_lt_zpow_expo (x : ℚ) : |x| < (2 : ℚ) ^ (expo x + 1) := by
  unfold expo
  split_ifs with hx
  · rw [hx, abs_zero]
    positivity
  · have h := @Int.lt_zpow_succ_log_self ℚ _ _ 2 (by norm_num) |x|
    have hm : Int.log 2 |x| + 1 ≤ max (Int.log 2 |x|) (-1022) + 1 := by
      have := le_max_left (Int.log 2 |x|) (-1022)
      omega
    calc |x| < ((2 : ℕ) : ℚ) ^ (Int.log 2 |x| + 1) := h
      _ = (2 : ℚ) ^ (Int.log 2 |x| + 1) := by norm_num
      _ ≤ (2 : ℚ) ^ (max (Int.log 2 |x|) (-1022) + 1) := zpow_le_zpow_right₀ (by norm_num) hm

theorem zpow_expo_le (x : ℚ) (h : -1022 < expo x) : (2 : ℚ) ^ expo x ≤ |x| := by
  unfold expo at h ⊢
  split_ifs at h ⊢ with hx
  · omega
  · have hpos : 0 < |x| := abs_pos.mpr hx
    have hl : max (Int.log 2 |x|) (-1022) = Int.log 2 |x| := by
      rcases le_total (Int.log 2 |x|) (-1022) with h' | h'
      · rw [max_eq_right h'] at h
        omega
      · exact max_eq_left h'
    rw [hl]
    have := @Int.zpow_log_le_self ℚ _ _ 2 |x| (by norm_num) hpos
    simpa using this

theorem ulp_pos (x : ℚ) : 0 < ulp x := by
  unfold ulp
  positivity

theorem ulp_le (x : ℚ) (e : ℤ) (h : expo x ≤ e) : ulp x ≤ 2 ^ (e - 52) := by
  unfold ulp
  exact zpow_le_zpow_right₀ (by norm_num) (by omega)

/-- Below `2 ^ 53` the spacing of the doubles is `1 / 2 ^ n` for a natural `n`, so every
integer lies on the grid. -/
theorem ulp_eq_inv_pow (x : ℚ) (h : expo x ≤ 52) : ∃ n : ℕ, ulp x = ((2 : ℚ) ^ n)⁻¹ := by
  refine ⟨(52 - expo x).toNat, ?_⟩
  unfold ulp
  rw [← zpow_natCast, ← zpow_neg]
  congr 1
  rw [Int.toNat_of_nonneg (by omega)]
  ring

end Binary64

/-! ## Rounding to the nearest double -/

namespace Binary64

theorem roundNearest_eq (x : ℚ) (e m : ℤ) (he : expo x = e)
    (hm : roundEven (x / 2 ^ (e - 52)) = m) : roundNearest x = m * 2 ^ (e - 52) := by
  unfold roundNearest ulp
  rw [he, hm]

/-- The rounded value is within half a spacing of the exact one. -/
theorem abs_roundNearest_sub_le (x : ℚ) : |roundNearest x - x| ≤ ulp x / 2 := by
  have hu := ulp_pos x
  have h := abs_roundEven_sub_le (x / ulp x)
  have e : roundNearest x - x = ((roundEven (x / ulp x) : ℚ) - x / ulp x) * ulp x := by
    unfold roundNearest
    field_simp
  rw [e, abs_mul, abs_of_pos hu]
  calc |(roundEven (x / ulp x) : ℚ) - x / ulp x| * ulp x
      ≤ 1 / 2 * ulp x := mul_le_mul_of_nonneg_right h (le_of_lt hu)
    _ = ulp x / 2 := by ring

/-- No point `n * ulp x` of the grid of the binade of `x` is nearer to `x` than the
rounded value. -/
theorem roundNearest_nearest_grid (x : ℚ) (n : ℤ) :
    |roundNearest x - x| ≤ |(n : ℚ) * ulp x - x| := by
  have hu := ulp_pos x
  have h := roundEven_nearest (x / ulp x) n
  have e1 : roundNearest x - x = ((roundEven (x / ulp x) : ℚ) - x / ulp x) * ulp x := by
    unfold roundNearest
    field_simp
  have e2 : (n : ℚ) * ulp x - x = ((n : ℚ) - x / ulp x) * ulp x := by
    field_simp
  rw [e1, e2, abs_mul, abs_mul, abs_of_pos hu]
  exact mul_le_mul_of_nonneg_right h (le_of_lt hu)

/-- The significand of the rounded value has at most 53 bits. -/
theorem abs_roundEven_div_ulp_le (x : ℚ) : |roundEven (x / ulp x)| ≤ 2 ^ 53 := by
  have hu := ulp_pos x
  have hx := abs_lt_zpow_expo x
  have hq : |x / ulp x| < 2 ^ 53 := by
    rw [abs_div, abs_of_pos hu, div_lt_iff₀ hu]
    have e : (2 : ℚ) ^ 53 * ulp x = (2 : ℚ) ^ (expo x + 1) := by
      unfold ulp
      rw [← zpow_natCast, ← zpow_add₀ (by norm_num)]
      congr 1
      push_cast
      ring
    rw [e]
    exact hx
  obtain ⟨h1, h2⟩ := abs_lt.mp hq
  rw [abs_le]
  constructor
  · apply le_roundEven
    push_cast
    linarith
  · apply roundEven_le
    push_cast
    linarith

/-- Rounding is to a nearest double: no fixed point `d` of the rounding is nearer to `x`
than `roundNearest x`. -/
theorem roundNearest_nearest (x d : ℚ) (hd : roundNearest d = d) :
    |roundNearest x - x| ≤ |d - x| := by
  rcases le_or_lt (expo x) (expo d) with hle | hlt
  · -- `d` lies on the grid of the binade of `x`
    have hk : ulp d = (2 : ℚ) ^ (expo d - expo x).toNat * ulp x := by
      unfold ulp
      rw [← zpow_natCast, ← zpow_add₀ (by norm_num)]
      congr 1
      rw [Int.toNat_of_nonneg (by omega)]
      ring
    have hgrid : d = ((roundEven (d / ulp d) * 2 ^ (expo d - expo x).toNat : ℤ) : ℚ) * ulp x := by
      conv_lhs => rw [← hd]
      unfold roundNearest
      rw [hk]
      push_cast
      ring
    rw [hgrid]
    exact roundNearest_nearest_grid x _
  · -- `d` lies in a lower binade: the end `± 2 ^ expo x` of the binade of `x` is nearer
    have hx := zpow_expo_le x (by have := expo_ge d; omega)
    have hdlt : |d| < (2 : ℚ) ^ expo x :=
      lt_of_lt_of_le (abs_lt_zpow_expo d) (zpow_le_zpow_right₀ (by norm_num) (by omega))
    have hb : (2 : ℚ) ^ expo x = ((2 ^ 52 : ℤ) : ℚ) * ulp x := by
      have e52 : ((2 ^ 52 : ℤ) : ℚ) = (2 : ℚ) ^ (52 : ℤ) := by norm_num
      unfold ulp
      rw [e52, ← zpow_add₀ (by norm_num)]
      congr 1
      ring
    obtain ⟨hd1, hd2⟩ := abs_lt.mp hdlt
    rcases le_or_lt 0 x with hx0 | hx0
    · rw [abs_of_nonneg hx0] at hx
      have h := roundNearest_nearest_grid x (2 ^ 52)
      rw [← hb] at h
      refine le_trans h ?_
      rw [abs_sub_comm, abs_of_nonneg (by linarith), abs_sub_comm d x, abs_of_nonneg (by linarith)]
      linarith
    · rw [abs_of_neg hx0] at hx
      have h := roundNearest_nearest_grid x (-(2 ^ 52))
      have hb' : ((-(2 ^ 52) : ℤ) : ℚ) * ulp x = -(2 : ℚ) ^ expo x := by
        rw [hb]
        push_cast
        ring
      rw [hb'] at h
      refine le_trans h ?_
      rw [abs_of_nonneg (by linarith), abs_of_nonneg (by linarith)]
      linarith

theorem roundNearest_of_grid (y : ℚ) (n : ℤ) (h : y = (n : ℚ) * ulp y) : roundNearest y = y := by
  have hu := ulp_pos y
  have e : y / ulp y = (n : ℚ) := by
    rw [div_eq_iff (ne_of_gt hu)]
    exact h
  unfold roundNearest
  rw [e, roundEven_intCast]
  exact h.symm

/-- The rounded value is a fixed point of the rounding. -/
theorem roundNearest_idempotent (x : ℚ) : roundNearest (roundNearest x) = roundNearest x := by
  have hm := abs_roundEven_div_ulp_le x
  have he := expo_ge x
  have hy : roundNearest x = (roundEven (x / ulp x) : ℚ) * (2 : ℚ) ^ (expo x - 52) := rfl
  have habs : |roundNearest x| = (|roundEven (x / ulp x)| : ℤ) * (2 : ℚ) ^ (expo x - 52) := by
    rw [hy, abs_mul, abs_of_pos (by positivity : (0 : ℚ) < 2 ^ (expo x - 52))]
    push_cast
    rfl
  rcases eq_or_lt_of_le hm with heq | hlt
  · -- the significand is `± 2 ^ 53`: the value is `± 2 ^ (expo x + 1)`
    have hval : |roundNearest x| = (2 : ℚ) ^ (expo x + 1) := by
      rw [habs, heq]
      have e53 : (((2 ^ 53 : ℤ)) : ℚ) = (2 : ℚ) ^ (53 : ℤ) := by norm_num
      rw [e53, ← zpow_add₀ (by norm_num)]
      congr 1
      ring
    have hexp : expo (roundNearest x) = expo x + 1 :=
      expo_eq _ _ (by omega) (le_of_eq hval.symm)
        (by rw [hval]; exact zpow_lt_zpow_right₀ (by norm_num) (by omega))
    have hulp : ulp (roundNearest x) = 2 * (2 : ℚ) ^ (expo x - 52) := by
      unfold ulp
      rw [hexp, show expo x + 1 - 52 = 1 + (expo x - 52) by ring, zpow_add₀ (by norm_num)]
      norm_num
    have hev : (2 : ℤ) ∣ roundEven (x / ulp x) := by
      rcases abs_choice (roundEven (x / ulp x)) with h | h
      · rw [← h, heq]
        norm_num
      · have : roundEven (x / ulp x) = -(2 ^ 53) := by omega
        rw [this]
        norm_num
    obtain ⟨k, hk⟩ := hev
    apply roundNearest_of_grid _ k
    rw [hulp]
    conv_lhs => rw [hy, hk]
    push_cast
    ring
  · -- the value stays in the binade of `x` or below
    have hval : |roundNearest x| < (2 : ℚ) ^ (expo x + 1) := by
      rw [habs]
      have h53 : ((|roundEven (x / ulp x)| : ℤ) : ℚ) < (2 : ℚ) ^ (53 : ℤ) := by
        have h' : ((|roundEven (x / ulp x)| : ℤ) : ℚ) < ((2 ^ 53 : ℤ) : ℚ) := by
          exact_mod_cast hlt
        have e53 : (((2 ^ 53 : ℤ)) : ℚ) = (2 : ℚ) ^ (53 : ℤ) := by norm_num
        rw [e53] at h'
        exact h'
      calc ((|roundEven (x / ulp x)| : ℤ) : ℚ) * (2 : ℚ) ^ (expo x - 52)
          < (2 : ℚ) ^ (53 : ℤ) * (2 : ℚ) ^ (expo x - 52) :=
            mul_lt_mul_of_pos_right h53 (by positivity)
        _ = (2 : ℚ) ^ (expo x + 1) := by
            rw [← zpow_add₀ (by norm_num)]
            congr 1
            ring
    have hexp : expo (roundNearest x) ≤ expo x := expo_le _ _ he hval
    have hulp : (2 : ℚ) ^ (expo x - 52)
        = (2 : ℚ) ^ (expo x - expo (roundNearest x)).toNat * ulp (roundNearest x) := by
      unfold ulp
      rw [← zpow_natCast, ← zpow_add₀ (by norm_num)]
      congr 1
      rw [Int.toNat_of_nonneg (by omega)]
      ring
    apply roundNearest_of_grid _
      (roundEven (x / ulp x) * 2 ^ (expo x - expo (roundNearest x)).toNat)
    conv_lhs => rw [hy, hulp]
    push_cast
    ring

theorem le_roundNearest (x : ℚ) (k : ℤ) (he : expo x ≤ 52) (h : (k : ℚ) ≤ x) :
    (k : ℚ) ≤ roundNearest x := by
  obtain ⟨n, hn⟩ := ulp_eq_inv_pow x he
  have hp : (0 : ℚ) < 2 ^ n := by positivity
  unfold roundNearest
  rw [hn, div_inv_eq_mul]
  have hk : ((k * 2 ^ n : ℤ) : ℚ) ≤ x * 2 ^ n := by
    push_cast
    exact mul_le_mul_of_nonneg_right h (le_of_lt hp)
  have hr : ((k * 2 ^ n : ℤ) : ℚ) ≤ (roundEven (x * 2 ^ n) : ℚ) := by
    exact_mod_cast le_roundEven _ _ hk
  rw [le_mul_inv_iff₀ hp]
  push_cast at hr
  exact hr

theorem roundNearest_le (x : ℚ) (k : ℤ) (he : expo x ≤ 52) (h : x ≤ (k : ℚ)) :
    roundNearest x ≤ (k : ℚ) := by
  obtain ⟨n, hn⟩ := ulp_eq_inv_pow x he
  have hp : (0 : ℚ) < 2 ^ n := by positivity
  unfold roundNearest
  rw [hn, div_inv_eq_mul]
  have hk : x * 2 ^ n ≤ ((k * 2 ^ n : ℤ) : ℚ) := by
    push_cast
    exact mul_le_mul_of_nonneg_right h (le_of_lt hp)
  have hr : (roundEven (x * 2 ^ n) : ℚ) ≤ ((k * 2 ^ n : ℤ) : ℚ) := by
    exact_mod_cast roundEven_le _ _ hk
  rw [mul_inv_le_iff₀ hp]
  push_cast at hr
  exact hr

/-- Integers of magnitude below `2 ^ 53` are doubles. -/
theorem roundNearest_intCast (k : ℤ) (h : |(k : ℚ)| < 2 ^ 53) : roundNearest (k : ℚ) = k := by
  have he : expo (k : ℚ) ≤ 52 := expo_le _ 52 (by norm_num) (by exact_mod_cast h)
  exact le_antisymm (roundNearest_le _ k he (le_refl _)) (le_roundNearest _ k he (le_refl _))

theorem round_eq_some (x : ℚ) (h : |roundNearest x| < 2 ^ 1024) :
    round x = some (roundNearest x) := by
  unfold round
  rw [if_pos h]

theorem roundNearest_of_round (x y : ℚ) (h : round x = some y) : roundNearest x = y := by
  unfold round at h
  split_ifs at h
  exact Option.some.inj h

/-- Every finite result of an operation is a double. -/
theorem isDouble_of_round (x y : ℚ) (h : round x = some y) : IsDouble y := by
  unfold round at h
  split_ifs at h with hfin
  have hy : roundNearest x = y := Option.some.inj h
  unfold IsDouble round
  rw [← hy, roundNearest_idempotent, if_pos hfin]

theorem round_intCast (k : ℤ) (h : |(k : ℚ)| < 2 ^ 53) : round (k : ℚ) = some (k : ℚ) := by
  have hk := roundNearest_intCast k h
  unfold round
  rw [hk, if_pos (lt_trans h (by norm_num))]

end Binary64

/-! ## Evaluating the rounding on concrete numbers -/

namespace Binary64

theorem round_eval_aux (x y : ℚ) (hr : roundNearest x = y) (hfin : |y| < 2 ^ 1024) :
    round x = some y := by
  unfold round
  rw [hr, if_pos hfin]

/-- Evaluation of `round` on a tie: `x` lies half-way between `n` and `n + 1` units of the
spacing of binade `e`, and the even one of the two is taken. -/
theorem round_eval_tie (x : ℚ) (e n : ℤ) (y : ℚ) (he : -1022 ≤ e) (h1 : (2 : ℚ) ^ e ≤ |x|)
    (h2 : |x| < (2 : ℚ) ^ (e + 1)) (hm : x / 2 ^ (e - 52) = n + 1 / 2)
    (hy : y = (if n % 2 = 0 then n else n + 1 : ℤ) * 2 ^ (e - 52)) (hfin : |y| < 2 ^ 1024) :
    round x = some y := by
  have hr : roundNearest x = y := by
    rw [hy]
    exact roundNearest_eq x e _ (expo_eq x e he h1 h2) (roundEven_tie _ _ hm)
  exact round_eval_aux x y hr hfin

/-- Evaluation of `round` away from a tie: `m` is the integer nearest to `x` measured in
units of the spacing of binade `e`. -/
theorem round_eval (x : ℚ) (e m : ℤ) (y : ℚ) (he : -1022 ≤ e) (h1 : (2 : ℚ) ^ e ≤ |x|)
    (h2 : |x| < (2 : ℚ) ^ (e + 1)) (hm : |x / 2 ^ (e - 52) - m| < 1 / 2)
    (hy : y = m * 2 ^ (e - 52)) (hfin : |y| < 2 ^ 1024) : round x = some y := by
  have hr : roundNearest x = y := by
    rw [hy]
    exact roundNearest_eq x e m (expo_eq x e he h1 h2) (roundEven_eq_of_near _ _ hm)
  exact round_eval_aux x y hr hfin

theorem round_zero : round 0 = some 0 := by
  have h := round_intCast 0 (by norm_num)
  simpa using h

theorem round_two_pow_53 : round (2 ^ 53) = some (2 ^ 53) :=
  round_eval _ 53 (2 ^ 52) _ (by norm_num) (by norm_num [abs_of_pos])
    (by norm_num [abs_of_pos]) (by norm_num [abs_lt]) (by norm_num) (by norm_num [abs_lt])

theorem round_neg_two_pow_53 : round (-(2 ^ 53)) = some (-(2 ^ 53)) :=
  round_eval _ 53 (-(2 ^ 52)) _ (by norm_num) (by norm_num [abs_of_pos])
    (by norm_num [abs_of_pos]) (by norm_num [abs_lt]) (by norm_num) (by norm_num [abs_lt])

/-- Every integer from `-2 ^ 53` to `2 ^ 53` is a double. -/
theorem round_int (k : ℤ) (h1 : -(2 ^ 53) ≤ k) (h2 : k ≤ 2 ^ 53) :
    round (k : ℚ) = some (k : ℚ) := by
  rcases eq_or_lt_of_le h2 with rfl | h2
  · simpa using round_two_pow_53
  rcases eq_or_lt_of_le h1 with h1 | h1
  · rw [← h1]
    simpa using round_neg_two_pow_53
  · apply round_intCast
    rw [abs_lt]
    constructor
    · exact_mod_cast h1
    · exact_mod_cast h2

theorem div_one_three : div 1 3 = some (6004799503160661 / 2 ^ 54) := by
  unfold div
  rw [if_neg (by norm_num)]
  exact round_eval _ (-2) 6004799503160661 _ (by norm_num) (by norm_num [abs_of_pos])
    (by norm_num [abs_of_pos]) (by norm_num [abs_lt]) (by norm_num) (by norm_num [abs_lt])

end Binary64

/-! ## The length converter -/

namespace Lab02

theorem len_yards_zero : len_yards 0 = some 0 := by
  unfold len_yards
  rw [Binary64.div_one_three]
  show Binary64.mul _ _ = _
  unfold Binary64.mul
  rw [mul_zero]
  exact Binary64.round_zero

theorem len_yards_neg_three : len_yards (-3) = some (-1) := by
  unfold len_yards
  rw [Binary64.div_one_three]
  show Binary64.mul _ _ = _
  unfold Binary64.mul
  exact Binary64.round_eval_tie _ (-1) (-(2 ^ 53)) _ (by norm_num) (by norm_num [abs_of_neg])
    (by norm_num [abs_of_neg]) (by norm_num) (by norm_num) (by norm_num [abs_lt])

theorem len_yards_twentyFive : len_yards 25 = some (4691249611844266 / 2 ^ 49) := by
  unfold len_yards
  rw [Binary64.div_one_three]
  show Binary64.mul _ _ = _
  unfold Binary64.mul
  exact Binary64.round_eval _ 3 4691249611844266 _ (by norm_num) (by norm_num [abs_of_pos])
    (by norm_num [abs_of_pos]) (by norm_num [abs_lt]) (by norm_num) (by norm_num [abs_lt])

theorem twentyFive_div_three : Binary64.div 25 3 = some (4691249611844267 / 2 ^ 49) := by
  unfold Binary64.div
  rw [if_neg (by norm_num)]
  exact Binary64.round_eval _ 3 4691249611844267 _ (by norm_num) (by norm_num [abs_of_pos])
    (by norm_num [abs_of_pos]) (by norm_num [abs_lt]) (by norm_num) (by norm_num [abs_lt])

theorem difference_twentyFive :
    Binary64.sub (4691249611844266 / 2 ^ 49) (4691249611844267 / 2 ^ 49)
      = some (-(1 / 2 ^ 49)) := by
  unfold Binary64.sub
  exact Binary64.round_eval _ (-49) (-(2 ^ 52)) _ (by norm_num) (by norm_num [abs_of_neg])
    (by norm_num [abs_of_neg]) (by norm_num [abs_lt]) (by norm_num) (by norm_num [abs_lt])

theorem epsilon_eq : epsilon = some (5070602400912918 / 2 ^ 102) := by
  unfold epsilon
  exact Binary64.round_eval _ (-50) 5070602400912918 _ (by norm_num) (by norm_num [abs_of_pos])
    (by norm_num [abs_of_pos]) (by norm_num [abs_lt]) (by norm_num) (by norm_num [abs_lt])

theorem test_eq (f y q eps d : ℚ) (hy : len_yards f = some y)
    (hq : Binary64.div f 3 = some q) (he : epsilon = some eps)
    (hd : Binary64.sub y q = some d) : test f = decide (|d| < eps) := by
  unfold test
  rw [hy, hq, he]
  simp only
  rw [hd]

theorem test_twentyFive : test 25 = false := by
  rw [test_eq 25 _ _ _ _ len_yards_twentyFive twentyFive_div_three epsilon_eq
    difference_twentyFive, decide_eq_false_iff_not]
  norm_num [abs_of_neg]

/-- C9: for `0.0` feet the converter computes `0.0` yards and for `-3.0` feet it computes
`-1.0` yards, both by the formula `1.0 / 3 * len_feet` in double arithmetic. -/
theorem len_yards_zero_and_neg_three : len_yards 0 = some 0 ∧ len_yards (-3) = some (-1) :=
  ⟨len_yards_zero, len_yards_neg_three⟩

/-- C2 at the input `25`: the length `25.0` is a double, `1.0 / 3 * 25.0` is
`4691249611844266 / 2 ^ 49` while `25.0 / 3` is `4691249611844267 / 2 ^ 49`, and the
expression under `test` on line 73 is false: the two differ by `2 ^ -49`, which is not
below `1e-15`. -/
theorem test_fails_at_twentyFive :
    Binary64.IsDouble 25 ∧
      len_yards 25 = some (4691249611844266 / 2 ^ 49) ∧
      Binary64.div 25 3 = some (4691249611844267 / 2 ^ 49) ∧
      test 25 = false := by
  refine ⟨?_, len_yards_twentyFive, twentyFive_div_three, test_twentyFive⟩
  have h := Binary64.round_int 25 (by norm_num) (by norm_num)
  unfold Binary64.IsDouble
  simpa using h

end Lab02

/-! ## The reading loop -/

namespace Assignment1

theorem wrapInt_of_fits (n : Int) (h1 : -2 ^ 31 ≤ n) (h2 : n < 2 ^ 31) : wrapInt n = n := by
  unfold wrapInt
  omega

theorem wrapInt_wrapInt_add (a b : Int) : wrapInt (wrapInt a + b) = wrapInt (a + b) := by
  unfold wrapInt
  omega

theorem fitsInt_iff (x : Int) : fitsInt x = true ↔ -(2 ^ 31) ≤ x ∧ x < 2 ^ 31 := by
  simp [fitsInt]

theorem readLoop_numbers (input : List Int) (st : ReadState) :
    (readLoop input st).numbers = st.numbers ++ input.takeWhile loopCondition := by
  induction input generalizing st with
  | nil => simp [readLoop]
  | cons t rest ih =>
    unfold readLoop
    by_cases h : loopCondition t = true
    · rw [if_pos h, ih]
      simp [List.takeWhile_cons, h]
    · rw [if_neg h]
      simp [List.takeWhile_cons, h]

theorem readLoop_count (input : List Int) (st : ReadState) (hst : wrapInt st.count = st.count) :
    (readLoop input st).count
      = wrapInt (st.count + ((input.takeWhile loopCondition).length : Int)) := by
  induction input generalizing st with
  | nil => simp [readLoop, hst]
  | cons t rest ih =>
    unfold readLoop
    by_cases h : loopCondition t = true
    · have hw : wrapInt (wrapInt (st.count + 1)) = wrapInt (st.count + 1) := by
        have := wrapInt_wrapInt_add (st.count + 1) 0
        simpa using this
      rw [if_pos h, ih _ hw]
      simp only [List.takeWhile_cons, h, if_true, List.length_cons]
      rw [wrapInt_wrapInt_add]
      congr 1
      push_cast
      ring
    · rw [if_neg h]
      simp [List.takeWhile_cons, h, hst]

theorem readNumbers_numbers (input : List Int) :
    (readNumbers input).numbers = input.takeWhile loopCondition := by
  unfold readNumbers
  rw [readLoop_numbers]
  rfl

theorem readNumbers_count (input : List Int) :
    (readNumbers input).count = wrapInt ((readNumbers input).numbers.length : Int) := by
  rw [readNumbers_numbers]
  unfold readNumbers
  rw [readLoop_count _ _ (by decide)]
  simp

theorem takeWhile_fits (input : List Int)
    (h : ∀ t ∈ input.takeWhile (fun t => t != -999), fitsInt t = true) :
    input.takeWhile loopCondition = input.takeWhile (fun t => t != -999) := by
  induction input with
  | nil => rfl
  | cons t rest ih =>
    by_cases hs : (t != -999) = true
    · simp only [List.takeWhile_cons, hs, if_true] at h
      have ht : fitsInt t = true := h t (List.mem_cons_self t _)
      have hb : loopCondition t = true := by unfold loopCondition; rw [ht, hs]; rfl
      simp only [List.takeWhile_cons, hs, hb, if_true]
      rw [ih (fun u hu => h u (List.mem_cons_of_mem t hu))]
    · have hb : ¬ loopCondition t = true := by
        intro hc
        exact hs (Bool.and_eq_true_iff.mp hc).2
      simp [List.takeWhile_cons, hs, hb]

theorem readNumbers_fits (input : List Int) :
    ∀ x ∈ (readNumbers input).numbers, fitsInt x = true := by
  intro x hx
  rw [readNumbers_numbers] at hx
  have := List.mem_takeWhile_imp hx
  exact (Bool.and_eq_true_iff.mp this).1

theorem readNumbers_not_sentinel (input : List Int) :
    (-999 : Int) ∉ (readNumbers input).numbers := by
  intro hx
  rw [readNumbers_numbers] at hx
  have := List.mem_takeWhile_imp hx
  revert this
  decide

theorem readNumbers_replicate_zero (n : Nat) :
    (readNumbers (List.replicate n 0)).numbers = List.replicate n 0 := by
  rw [readNumbers_numbers]
  apply List.takeWhile_eq_self_iff.mpr
  intro x hx
  rw [List.eq_of_mem_replicate hx]
  decide

end Assignment1

/-! ## The summation loop and the average -/

namespace Assignment1

/-- While the running total stays within `± 2 ^ 53` no addition of the loop rounds. -/
theorem sumLoop_exact (l : List Int) (a : ℤ) (hf : ∀ x ∈ l, fitsInt x = true)
    (h1 : -(2 ^ 53) + 2 ^ 31 * (l.length : ℤ) ≤ a) (h2 : a + 2 ^ 31 * (l.length : ℤ) ≤ 2 ^ 53) :
    sumLoop l (some (a : ℚ)) = some ((a + l.sum : ℤ) : ℚ) := by
  induction l generalizing a with
  | nil => simp [sumLoop]
  | cons x xs ih =>
    obtain ⟨hx1, hx2⟩ := (fitsInt_iff x).mp (hf x (List.mem_cons_self x xs))
    simp only [List.length_cons] at h1 h2
    push_cast at h1 h2
    have hlen : (0 : ℤ) ≤ (xs.length : ℤ) := Int.natCast_nonneg _
    have hox : Binary64.ofInt x = some (x : ℚ) :=
      Binary64.round_int x (by omega) (by omega)
    have hadd : Binary64.add (a : ℚ) (x : ℚ) = some ((a + x : ℤ) : ℚ) := by
      unfold Binary64.add
      rw [← Int.cast_add]
      exact Binary64.round_int (a + x) (by omega) (by omega)
    unfold sumLoop
    simp only [Option.some_bind, hox, hadd]
    rw [ih (a + x) (fun y hy => hf y (List.mem_cons_of_mem x hy)) (by omega) (by omega),
      List.sum_cons, add_assoc]

theorem mul_length_le_sum (l : List Int) (lo : Int) (h : ∀ x ∈ l, lo ≤ x) :
    lo * (l.length : ℤ) ≤ l.sum := by
  induction l with
  | nil => simp
  | cons x xs ih =>
    have hx := h x (List.mem_cons_self x xs)
    have := ih (fun y hy => h y (List.mem_cons_of_mem x hy))
    simp only [List.length_cons, List.sum_cons]
    push_cast
    linarith

theorem sum_le_mul_length (l : List Int) (hi : Int) (h : ∀ x ∈ l, x ≤ hi) :
    l.sum ≤ hi * (l.length : ℤ) := by
  induction l with
  | nil => simp
  | cons x xs ih =>
    have hx := h x (List.mem_cons_self x xs)
    have := ih (fun y hy => h y (List.mem_cons_of_mem x hy))
    simp only [List.length_cons, List.sum_cons]
    push_cast
    linarith

/-- The exact quotient `sum / count` lies between any lower and upper bound of the values. -/
theorem quotient_bounds (l : List Int) (hne : l ≠ []) (lo hi : Int)
    (hlo : ∀ x ∈ l, lo ≤ x) (hhi : ∀ x ∈ l, x ≤ hi) :
    (lo : ℚ) ≤ (l.sum : ℚ) / (l.length : ℚ) ∧ (l.sum : ℚ) / (l.length : ℚ) ≤ (hi : ℚ) := by
  have hpos : (0 : ℚ) < (l.length : ℚ) := by
    have : 0 < l.length := List.length_pos.mpr hne
    exact_mod_cast this
  have h1 : ((lo * (l.length : ℤ) : ℤ) : ℚ) ≤ (l.sum : ℚ) := by
    exact_mod_cast mul_length_le_sum l lo hlo
  have h2 : (l.sum : ℚ) ≤ ((hi * (l.length : ℤ) : ℤ) : ℚ) := by
    exact_mod_cast sum_le_mul_length l hi hhi
  simp only [Int.cast_mul, Int.cast_natCast] at h1 h2
  exact ⟨(le_div_iff₀ hpos).mpr h1, (div_le_iff₀ hpos).mpr h2⟩

theorem expo_quotient_le (l : List Int) (hne : l ≠ []) (hf : ∀ x ∈ l, fitsInt x = true) :
    Binary64.expo ((l.sum : ℚ) / (l.length : ℚ)) ≤ 31 := by
  obtain ⟨b1, b2⟩ := quotient_bounds l hne (-(2 ^ 31)) (2 ^ 31)
    (fun x hx => ((fitsInt_iff x).mp (hf x hx)).1)
    (fun x hx => le_of_lt ((fitsInt_iff x).mp (hf x hx)).2)
  simp only [Int.cast_neg, Int.cast_pow, Int.cast_ofNat] at b1 b2
  apply Binary64.expo_le _ 31 (by norm_num)
  rw [abs_lt]
  constructor
  · refine lt_of_lt_of_le ?_ b1
    norm_num
  · refine lt_of_le_of_lt b2 ?_
    norm_num

/-- The rounded quotient of a vector of `int` lies between any integer bounds of the
values. -/
theorem roundNearest_quotient_bounds (l : List Int) (hne : l ≠ [])
    (hf : ∀ x ∈ l, fitsInt x = true) (lo hi : Int)
    (hlo : ∀ x ∈ l, lo ≤ x) (hhi : ∀ x ∈ l, x ≤ hi) :
    (lo : ℚ) ≤ Binary64.roundNearest ((l.sum : ℚ) / (l.length : ℚ)) ∧
      Binary64.roundNearest ((l.sum : ℚ) / (l.length : ℚ)) ≤ (hi : ℚ) := by
  obtain ⟨b1, b2⟩ := quotient_bounds l hne (-(2 ^ 31)) (2 ^ 31)
    (fun x hx => ((fitsInt_iff x).mp (hf x hx)).1)
    (fun x hx => le_of_lt ((fitsInt_iff x).mp (hf x hx)).2)
  simp only [Int.cast_neg, Int.cast_pow, Int.cast_ofNat] at b1 b2
  have he : Binary64.expo ((l.sum : ℚ) / (l.length : ℚ)) ≤ 52 := by
    have h31 : Binary64.expo ((l.sum : ℚ) / (l.length : ℚ)) ≤ 31 := by
      apply Binary64.expo_le _ 31 (by norm_num)
      rw [abs_lt]
      constructor
      · refine lt_of_lt_of_le ?_ b1
        norm_num
      · refine lt_of_le_of_lt b2 ?_
        norm_num
    omega
  obtain ⟨q1, q2⟩ := quotient_bounds l hne lo hi hlo hhi
  exact ⟨Binary64.le_roundNearest _ lo he q1, Binary64.roundNearest_le _ hi he q2⟩

/-- For a non-empty vector of at most `2 ^ 22` values of type `int` the average is the
exact quotient `sum / count` rounded once. -/
theorem average_exact (l : List Int) (hne : l ≠ []) (hf : ∀ x ∈ l, fitsInt x = true)
    (hlen : l.length ≤ 2 ^ 22) :
    average l = some (Binary64.roundNearest ((l.sum : ℚ) / (l.length : ℚ))) := by
  have hl : (l.length : ℤ) ≤ 2 ^ 22 := by exact_mod_cast hlen
  have hl0 : (0 : ℤ) ≤ (l.length : ℤ) := Int.natCast_nonneg _
  have hsum : sumLoop l (some 0) = some (l.sum : ℚ) := by
    have := sumLoop_exact l 0 hf (by omega) (by omega)
    simpa using this
  have hsize : Binary64.ofNat l.length = some (l.length : ℚ) := by
    have := Binary64.round_int (l.length : ℤ) (by omega) (by omega)
    simpa [Binary64.ofNat] using this
  have hpos : (l.length : ℚ) ≠ 0 := by
    have : l.length ≠ 0 := fun h => hne (List.length_eq_zero.mp h)
    exact_mod_cast this
  obtain ⟨r1, r2⟩ := roundNearest_quotient_bounds l hne hf (-(2 ^ 31)) (2 ^ 31)
    (fun x hx => ((fitsInt_iff x).mp (hf x hx)).1)
    (fun x hx => le_of_lt ((fitsInt_iff x).mp (hf x hx)).2)
  simp only [Int.cast_neg, Int.cast_pow, Int.cast_ofNat] at r1 r2
  unfold average
  rw [hsum, Option.some_bind, hsize, Option.some_bind]
  unfold Binary64.div
  rw [if_neg hpos]
  apply Binary64.round_eq_some
  rw [abs_lt]
  constructor
  · refine lt_of_lt_of_le ?_ r1
    norm_num
  · refine lt_of_le_of_lt r2 ?_
    norm_num

theorem analyze_nil : analyze [] = Outcome.noNumbers := rfl

theorem analyze_of_ne_nil (l : List Int) (hne : l ≠ []) :
    analyze l = Outcome.report (sort l) (average (sort l)) (sort l).length := by
  unfold analyze
  rw [if_neg]
  simpa using hne

/-- The report for a non-empty vector of at most `2 ^ 22` values of type `int`. -/
theorem analyze_exact (l : List Int) (hne : l ≠ []) (hf : ∀ x ∈ l, fitsInt x = true)
    (hlen : l.length ≤ 2 ^ 22) :
    analyze l = Outcome.report (sort l)
      (some (Binary64.roundNearest ((l.sum : ℚ) / (l.length : ℚ)))) l.length := by
  have hp := sort_perm l
  have hne' : sort l ≠ [] := fun h => hne ((sort_eq_nil l).mp h)
  rw [analyze_of_ne_nil l hne,
    average_exact (sort l) hne' (fun x hx => hf x (hp.subset hx)) (by rw [hp.length_eq]; exact hlen),
    hp.sum_eq, hp.length_eq]

theorem roundNearest_third : Binary64.roundNearest (1 / 3) = 6004799503160661 / 2 ^ 54 := by
  have h := Binary64.div_one_three
  unfold Binary64.div at h
  rw [if_neg (by norm_num)] at h
  exact Binary64.roundNearest_of_round _ _ h

end Assignment1

/-! ## A long input on which the running total rounds -/

namespace Assignment1

theorem sumLoop_append (l₁ l₂ : List Int) (s : Option ℚ) :
    sumLoop (l₁ ++ l₂) s = sumLoop l₂ (sumLoop l₁ s) := by
  induction l₁ generalizing s with
  | nil => rfl
  | cons x xs ih => exact ih _

theorem sumLoop_replicate (n : Nat) (v : Int) (hv : fitsInt v = true) (hn : n ≤ 2 ^ 22) :
    sumLoop (List.replicate n v) (some 0) = some (((n : ℤ) * v : ℤ) : ℚ) := by
  have hn' : (n : ℤ) ≤ 2 ^ 22 := by exact_mod_cast hn
  have hn0 : (0 : ℤ) ≤ (n : ℤ) := Int.natCast_nonneg _
  have h := sumLoop_exact (List.replicate n v) 0
    (fun x hx => by rw [List.eq_of_mem_replicate hx]; exact hv)
    (by rw [List.length_replicate]; omega) (by rw [List.length_replicate]; omega)
  rw [List.sum_replicate, nsmul_eq_mul, zero_add] at h
  rw [← h]
  simp only [Int.cast_zero]

/-- The running total after `2 ^ 22 + 1` copies of `INT_MAX`: the last addition is a tie
between two doubles and goes up, to one more than the exact sum. -/
theorem sumLoop_drift :
    sumLoop (List.replicate (2 ^ 22 + 1) (2 ^ 31 - 1)) (some 0)
      = some (9007201398030336 : ℚ) := by
  rw [List.replicate_succ', sumLoop_append,
    sumLoop_replicate (2 ^ 22) (2 ^ 31 - 1) (by decide) (le_refl _)]
  have hox : Binary64.ofInt (2 ^ 31 - 1) = some (((2 ^ 31 - 1 : ℤ)) : ℚ) :=
    Binary64.round_int _ (by norm_num) (by norm_num)
  unfold sumLoop sumLoop
  rw [Option.some_bind, hox, Option.some_bind]
  unfold Binary64.add
  exact Binary64.round_eval_tie _ 53 4503600699015167 _ (by norm_num)
    (by norm_num [abs_of_pos]) (by norm_num [abs_of_pos]) (by norm_num) (by norm_num)
    (by norm_num [abs_lt])

theorem average_drift :
    average (List.replicate (2 ^ 22 + 1) (2 ^ 31 - 1)) = some (9007199250546689 / 2 ^ 22) := by
  have hsize : Binary64.ofNat (2 ^ 22 + 1) = some ((2 ^ 22 + 1 : ℚ)) := by
    have := Binary64.round_int (2 ^ 22 + 1) (by norm_num) (by norm_num)
    have e1 : (((2 ^ 22 + 1 : ℕ)) : ℚ) = (((2 ^ 22 + 1 : ℤ)) : ℚ) := by norm_num
    have e2 : (2 ^ 22 + 1 : ℚ) = (((2 ^ 22 + 1 : ℤ)) : ℚ) := by norm_num
    unfold Binary64.ofNat
    rw [e1, e2]
    exact this
  unfold average
  rw [sumLoop_drift, Option.some_bind, List.length_replicate, hsize, Option.some_bind]
  unfold Binary64.div
  rw [if_neg (by norm_num)]
  exact Binary64.round_eval _ 30 9007199250546689 _ (by norm_num) (by norm_num [abs_of_pos])
    (by norm_num [abs_of_pos]) (by norm_num [abs_lt]) (by norm_num) (by norm_num [abs_lt])

theorem analyze_drift :
    analyze (List.replicate (2 ^ 22 + 1) (2 ^ 31 - 1))
      = Outcome.report (List.replicate (2 ^ 22 + 1) (2 ^ 31 - 1))
          (some (9007199250546689 / 2 ^ 22)) (2 ^ 22 + 1) := by
  have hne : (List.replicate (2 ^ 22 + 1) (2 ^ 31 - 1 : Int)).isEmpty = false := by
    rw [List.replicate_succ]
    rfl
  unfold analyze
  rw [hne, sort_of_sorted _ (replicate_sorted _ _), average_drift, List.length_replicate]
  rfl

end Assignment1

/-! ## The properties of the statistics program -/

namespace Assignment1

/-- C1: for every integer sequence `L` the vector after the sort call is a permutation of
`L` and is non-decreasing, and it is the `sortedValues` of every report of the program. -/
theorem sortedValues_perm_sorted (L : List Int) :
    (sort L).Perm L ∧ (sort L).Sorted (· ≤ ·) ∧
      ∀ s m c, analyze L = Outcome.report s m c → s = sort L := by
  refine ⟨sort_perm L, sort_sorted L, ?_⟩
  intro s m c h
  by_cases hne : L = []
  · subst hne
    rw [analyze_nil] at h
    exact Outcome.noConfusion h
  · rw [analyze_of_ne_nil L hne] at h
    injection h with h1 h2 h3
    exact h1.symm

theorem sortedValues_perm_sorted_witness :
    analyze [2, 1] = Outcome.report [1, 2] (average [1, 2]) 2 ∧ [1, 2] = sort [2, 1] :=
  ⟨rfl, (sortedValues_perm_sorted [2, 1]).2.2 [1, 2] (average [1, 2]) 2 rfl⟩

/-- C7: sorting is idempotent: a sequence that is already non-decreasing is returned
unchanged by the sort step, hence sorting the sorted values of any `L` again gives the
sorted values of `L`. -/
theorem sort_idempotent (L : List Int) :
    (L.Sorted (· ≤ ·) → sort L = L) ∧ sort (sort L) = sort L :=
  ⟨sort_of_sorted L, sort_of_sorted (sort L) (sort_sorted L)⟩

theorem sort_idempotent_witness :
    ([1, 2, 2, 5] : List Int).Sorted (· ≤ ·) ∧ sort [1, 2, 2, 5] = [1, 2, 2, 5] ∧
      sort (sort [1, 2, 2, 5]) = sort [1, 2, 2, 5] :=
  ⟨by decide, (sort_idempotent [1, 2, 2, 5]).1 (by decide), (sort_idempotent [1, 2, 2, 5]).2⟩

/-- C4: the analysis of the empty sequence takes the "No numbers entered." branch, in
which no mean is computed, and it takes that branch only for the empty sequence; when the
sequence read is empty the counter is `0`; and whenever a report is made, the divisor of
the average, the size of the vector, is not zero. -/
theorem no_numbers_iff_empty (L input : List Int) :
    (analyze L = Outcome.noNumbers ↔ L = []) ∧
      ((readNumbers input).numbers = [] →
        (readNumbers input).count = 0 ∧ main input = Outcome.noNumbers) ∧
      ∀ s m c, analyze L = Outcome.report s m c → c ≠ 0 ∧ c = s.length ∧ m = average s := by
  refine ⟨?_, ?_, ?_⟩
  · constructor
    · intro h
      by_contra hne
      rw [analyze_of_ne_nil _ hne] at h
      exact Outcome.noConfusion h
    · intro h
      rw [h]
      rfl
  · intro h
    constructor
    · rw [readNumbers_count, h]
      rfl
    · unfold main
      rw [h]
      rfl
  · intro s m c h
    by_cases hne : L = []
    · rw [hne, analyze_nil] at h
      exact Outcome.noConfusion h
    · rw [analyze_of_ne_nil _ hne] at h
      injection h with h1 h2 h3
      subst h1
      refine ⟨?_, h3.symm, h2.symm⟩
      rw [← h3, sort_length]
      exact fun h0 => hne (List.length_eq_zero.mp h0)

theorem no_numbers_iff_empty_witness :
    ((readNumbers [-999, 4]).numbers = [] ∧
        analyze [2, 1] = Outcome.report [1, 2] (average [1, 2]) 2) ∧
      analyze [] = Outcome.noNumbers ∧
      ((readNumbers [-999, 4]).count = 0 ∧ main [-999, 4] = Outcome.noNumbers) ∧
      ((2 : Nat) ≠ 0 ∧ (2 : Nat) = ([1, 2] : List Int).length ∧ average [1, 2] = average [1, 2]) :=
  ⟨⟨rfl, rfl⟩, (no_numbers_iff_empty [] [-999, 4]).1.mpr rfl,
    (no_numbers_iff_empty [] [-999, 4]).2.1 rfl,
    (no_numbers_iff_empty [2, 1] [-999, 4]).2.2 [1, 2] (average [1, 2]) 2 rfl⟩

/-- C5, as stated, fails for the loop counter: `count` is an `int`, and after `2 ^ 31`
values it has wrapped to `-2 ^ 31` while the vector holds `2 ^ 31` elements. -/
theorem counter_wraps_after_two_pow_31 :
    (readNumbers (List.replicate (2 ^ 31) 0)).numbers.length = 2 ^ 31 ∧
      (readNumbers (List.replicate (2 ^ 31) 0)).count = -(2 ^ 31) ∧
      (readNumbers (List.replicate (2 ^ 31) 0)).count
        ≠ ((readNumbers (List.replicate (2 ^ 31) 0)).numbers.length : Int) := by
  have hlen : (readNumbers (List.replicate (2 ^ 31) 0)).numbers.length = 2 ^ 31 := by
    rw [readNumbers_replicate_zero, List.length_replicate]
  have hcount : (readNumbers (List.replicate (2 ^ 31) 0)).count = -(2 ^ 31) := by
    rw [readNumbers_count, hlen]
    unfold wrapInt
    norm_num
  refine ⟨hlen, hcount, ?_⟩
  rw [hcount, hlen]
  norm_num

/-- C5, amended: the count reported is the length of the vector after sorting, which is
the number of elements of `L`; the loop counter `count` holds the number of values read
as long as fewer than `2 ^ 31` values are read. -/
theorem count_eq_length (L input : List Int) :
    (sort L).length = L.length ∧
      (∀ s m c, analyze L = Outcome.report s m c → c = L.length) ∧
      ((readNumbers input).numbers.length < 2 ^ 31 →
        (readNumbers input).count = ((readNumbers input).numbers.length : Int)) := by
  refine ⟨sort_length L, ?_, ?_⟩
  · intro s m c h
    by_cases hne : L = []
    · subst hne
      rw [analyze_nil] at h
      exact Outcome.noConfusion h
    · rw [analyze_of_ne_nil L hne] at h
      injection h with h1 h2 h3
      rw [← h3, sort_length]
  · intro h
    rw [readNumbers_count]
    apply wrapInt_of_fits
    · have : (0 : ℤ) ≤ ((readNumbers input).numbers.length : ℤ) := Int.natCast_nonneg _
      omega
    · exact_mod_cast h

theorem count_eq_length_witness :
    analyze [2, 1] = Outcome.report [1, 2] (average [1, 2]) 2 ∧
      (readNumbers [7, 7, -999]).numbers.length < 2 ^ 31 ∧
      (2 : Nat) = ([2, 1] : List Int).length ∧
      (readNumbers [7, 7, -999]).count = ((readNumbers [7, 7, -999]).numbers.length : Int) :=
  ⟨rfl, by decide, (count_eq_length [2, 1] [7, 7, -999]).2.1 _ _ _ rfl,
    (count_eq_length [2, 1] [7, 7, -999]).2.2 (by decide)⟩

/-- C6, as stated, fails: a token outside the range of `int` ends the reading, so the
tokens that follow it are not analysed although no `-999` has been met. -/
theorem out_of_range_token_ends_reading :
    (readNumbers [1, 2147483648, 2, -999]).numbers = [1] ∧
      (readNumbers [1, 2147483648, 2, -999]).numbers
        ≠ List.takeWhile (fun t => t != -999) [1, 2147483648, 2, -999] := by
  decide

/-- C6, amended: when every token before the first `-999` is in the range of `int`, the
sequence analysed is exactly the tokens before the first `-999` (all of them when there is
none), in input order; `-999` is never analysed. -/
theorem tokens_before_sentinel (input : List Int)
    (h : ∀ t ∈ input.takeWhile (fun t => t != -999), fitsInt t = true) :
    (readNumbers input).numbers = input.takeWhile (fun t => t != -999) ∧
      (-999 : Int) ∉ (readNumbers input).numbers ∧
      main input = analyze (input.takeWhile (fun t => t != -999)) := by
  have hnum : (readNumbers input).numbers = input.takeWhile (fun t => t != -999) := by
    rw [readNumbers_numbers, takeWhile_fits input h]
  refine ⟨hnum, readNumbers_not_sentinel input, ?_⟩
  unfold main
  rw [hnum]

theorem tokens_before_sentinel_witness :
    (∀ t ∈ List.takeWhile (fun t => t != -999) [3, 1, 2, -999, 7], fitsInt t = true) ∧
      (readNumbers [3, 1, 2, -999, 7]).numbers
        = List.takeWhile (fun t => t != -999) [3, 1, 2, -999, 7] ∧
      (-999 : Int) ∉ (readNumbers [3, 1, 2, -999, 7]).numbers ∧
      main [3, 1, 2, -999, 7] = analyze (List.takeWhile (fun t => t != -999) [3, 1, 2, -999, 7]) :=
  ⟨by decide, tokens_before_sentinel [3, 1, 2, -999, 7] (by decide)⟩

/-- C8: the analysis of `[3, 1, 2]` reports the sorted values `[1, 2, 3]`, the mean `2.0`
and the count `3`. -/
theorem analyze_three_one_two : analyze [3, 1, 2] = Outcome.report [1, 2, 3] (some 2) 3 := by
  have h2 : Binary64.roundNearest
      (((([3, 1, 2] : List Int).sum : ℤ) : ℚ) / ((([3, 1, 2] : List Int).length : ℕ) : ℚ)) = 2 := by
    have h := Binary64.roundNearest_intCast 2 (by norm_num)
    have e : ((([3, 1, 2] : List Int).sum : ℤ) : ℚ) / ((([3, 1, 2] : List Int).length : ℕ) : ℚ)
        = ((2 : ℤ) : ℚ) := by
      norm_num
    rw [e, h]
    norm_num
  rw [analyze_exact [3, 1, 2] (by decide) (by decide) (by decide), h2]
  rfl

/-- C3, as stated, fails.  For `2 ^ 22 + 1` copies of `2 ^ 31 - 1` the quotient of the sum
by the number of elements is `2147483647`, itself a double, but the running total has
been rounded on the way and the mean is `2147483647 + 1 / 2 ^ 22`.  And for `[1, 0, 0]`
the mean is the double `6004799503160661 / 2 ^ 54`, not `1 / 3`. -/
theorem rounded_mean_differs_from_quotient :
    (analyze (List.replicate (2 ^ 22 + 1) (2 ^ 31 - 1))
        = Outcome.report (List.replicate (2 ^ 22 + 1) (2 ^ 31 - 1))
            (some (9007199250546689 / 2 ^ 22)) (2 ^ 22 + 1) ∧
      (((List.replicate (2 ^ 22 + 1) (2 ^ 31 - 1) : List Int).sum : ℚ)
          / ((List.replicate (2 ^ 22 + 1) (2 ^ 31 - 1) : List Int).length : ℚ)
        = 2147483647) ∧
      (9007199250546689 / 2 ^ 22 : ℚ) ≠ 2147483647) ∧
    (analyze [1, 0, 0] = Outcome.report [0, 0, 1] (some (6004799503160661 / 2 ^ 54)) 3 ∧
      (6004799503160661 / 2 ^ 54 : ℚ)
        ≠ (([1, 0, 0] : List Int).sum : ℚ) / (([1, 0, 0] : List Int).length : ℚ)) := by
  refine ⟨⟨analyze_drift, ?_, ?_⟩, ?_, ?_⟩
  · rw [List.sum_replicate, List.length_replicate, nsmul_eq_mul]
    norm_num
  · norm_num
  · have e : ((([1, 0, 0] : List Int).sum : ℤ) : ℚ) / ((([1, 0, 0] : List Int).length : ℕ) : ℚ)
        = 1 / 3 := by
      norm_num
    rw [analyze_exact [1, 0, 0] (by decide) (by decide) (by decide), e, roundNearest_third]
    rfl
  · norm_num

/-- C3, amended: for every non-empty sequence `L` of at most `2 ^ 22` values of type `int`
the mean is the exact quotient of the sum by the number of elements, rounded to the
nearest double: it differs from the quotient by at most `2 ^ -22`, and it is the quotient
itself whenever that is an integer. -/
theorem mean_eq_rounded_quotient (L : List Int) (hne : L ≠ [])
    (hf : ∀ x ∈ L, fitsInt x = true) (hlen : L.length ≤ 2 ^ 22) :
    analyze L = Outcome.report (sort L)
        (some (Binary64.roundNearest ((L.sum : ℚ) / (L.length : ℚ)))) L.length ∧
      |Binary64.roundNearest ((L.sum : ℚ) / (L.length : ℚ)) - (L.sum : ℚ) / (L.length : ℚ)|
        ≤ 1 / 2 ^ 22 ∧
      ∀ k : ℤ, (L.sum : ℚ) / (L.length : ℚ) = k →
        Binary64.roundNearest ((L.sum : ℚ) / (L.length : ℚ)) = k := by
  have he := expo_quotient_le L hne hf
  refine ⟨analyze_exact L hne hf hlen, ?_, ?_⟩
  · have h1 := Binary64.abs_roundNearest_sub_le ((L.sum : ℚ) / (L.length : ℚ))
    have h2 := Binary64.ulp_le _ 31 he
    have h3 : (2 : ℚ) ^ ((31 : ℤ) - 52) / 2 = 1 / 2 ^ 22 := by norm_num
    linarith
  · intro k hk
    have he52 : Binary64.expo ((L.sum : ℚ) / (L.length : ℚ)) ≤ 52 := by omega
    exact le_antisymm (Binary64.roundNearest_le _ k he52 (le_of_eq hk))
      (Binary64.le_roundNearest _ k he52 (le_of_eq hk.symm))

theorem mean_eq_rounded_quotient_witness :
    (([3, 1, 2] : List Int) ≠ [] ∧ (∀ x ∈ ([3, 1, 2] : List Int), fitsInt x = true) ∧
        ([3, 1, 2] : List Int).length ≤ 2 ^ 22) ∧
      (analyze [3, 1, 2] = Outcome.report (sort [3, 1, 2])
          (some (Binary64.roundNearest (((([3, 1, 2] : List Int).sum : ℤ) : ℚ)
            / ((([3, 1, 2] : List Int).length : ℕ) : ℚ)))) ([3, 1, 2] : List Int).length ∧
        |Binary64.roundNearest (((([3, 1, 2] : List Int).sum : ℤ) : ℚ)
            / ((([3, 1, 2] : List Int).length : ℕ) : ℚ))
          - ((([3, 1, 2] : List Int).sum : ℤ) : ℚ) / ((([3, 1, 2] : List Int).length : ℕ) : ℚ)|
          ≤ 1 / 2 ^ 22 ∧
        ∀ k : ℤ, ((([3, 1, 2] : List Int).sum : ℤ) : ℚ) / ((([3, 1, 2] : List Int).length : ℕ) : ℚ)
            = k →
          Binary64.roundNearest (((([3, 1, 2] : List Int).sum : ℤ) : ℚ)
            / ((([3, 1, 2] : List Int).length : ℕ) : ℚ)) = k) :=
  ⟨⟨by decide, by decide, by decide⟩,
    mean_eq_rounded_quotient [3, 1, 2] (by decide) (by decide) (by decide)⟩

/-- C10, as stated, fails: for `2 ^ 22 + 1` copies of `2 ^ 31 - 1` the mean reported is
`2147483647 + 1 / 2 ^ 22`, above the last (and every) element of the sorted values. -/
theorem mean_above_maximum :
    analyze (List.replicate (2 ^ 22 + 1) (2 ^ 31 - 1))
        = Outcome.report (List.replicate (2 ^ 22 + 1) (2 ^ 31 - 1))
            (some (9007199250546689 / 2 ^ 22)) (2 ^ 22 + 1) ∧
      (List.replicate (2 ^ 22 + 1) (2 ^ 31 - 1 : Int)).getLast? = some (2 ^ 31 - 1) ∧
      (((2 ^ 31 - 1 : Int)) : ℚ) < 9007199250546689 / 2 ^ 22 := by
  refine ⟨analyze_drift, ?_, ?_⟩
  · rw [List.getLast?_replicate, if_neg (by norm_num)]
  · norm_num

/-- C10, amended: any permutation of `L` yields the same sorted values, count and mean;
and for a non-empty `L` of at most `2 ^ 22` values of type `int` the mean lies between
the first and the last element of the sorted values. -/
theorem mean_between_min_max (L L' : List Int) :
    (L'.Perm L → analyze L' = analyze L) ∧
      (L ≠ [] → (∀ x ∈ L, fitsInt x = true) → L.length ≤ 2 ^ 22 →
        ∃ m : ℚ, analyze L = Outcome.report (sort L) (some m) L.length ∧
          (∀ a, (sort L).head? = some a → (a : ℚ) ≤ m) ∧
          (∀ b, (sort L).getLast? = some b → m ≤ (b : ℚ))) := by
  constructor
  · intro hp
    unfold analyze
    rw [sort_congr hp]
    by_cases hne : L = []
    · subst hne
      rw [List.Perm.eq_nil hp]
    · have hne' : L' ≠ [] := fun h => hne (by rw [h] at hp; exact hp.symm.eq_nil)
      have e1 : L.isEmpty = false := by simpa using hne
      have e2 : L'.isEmpty = false := by simpa using hne'
      rw [e1, e2]
  · intro hne hf hlen
    refine ⟨_, analyze_exact L hne hf hlen, ?_, ?_⟩
    · intro a ha
      have hall : ∀ x ∈ L, a ≤ x := fun x hx =>
        head_le_of_sorted (sort L) (sort_sorted L) a ha x ((sort_perm L).symm.subset hx)
      exact (roundNearest_quotient_bounds L hne hf a (2 ^ 31) hall
        (fun x hx => le_of_lt ((fitsInt_iff x).mp (hf x hx)).2)).1
    · intro b hb
      have hall : ∀ x ∈ L, x ≤ b := fun x hx =>
        le_getLast_of_sorted (sort L) (sort_sorted L) b hb x ((sort_perm L).symm.subset hx)
      exact (roundNearest_quotient_bounds L hne hf (-(2 ^ 31)) b
        (fun x hx => ((fitsInt_iff x).mp (hf x hx)).1) hall).2

theorem mean_between_min_max_witness :
    (([3, 1, 2] : List Int).Perm [1, 2, 3] ∧ ([1, 2, 3] : List Int) ≠ [] ∧
        (∀ x ∈ ([1, 2, 3] : List Int), fitsInt x = true) ∧
        ([1, 2, 3] : List Int).length ≤ 2 ^ 22) ∧
      analyze [3, 1, 2] = analyze [1, 2, 3] ∧
      ∃ m : ℚ, analyze [1, 2, 3] = Outcome.report (sort [1, 2, 3]) (some m)
          ([1, 2, 3] : List Int).length ∧
        (∀ a, (sort [1, 2, 3]).head? = some a → (a : ℚ) ≤ m) ∧
        (∀ b, (sort [1, 2, 3]).getLast? = some b → m ≤ (b : ℚ)) :=
  ⟨⟨by decide, by decide, by decide, by decide⟩,
    (mean_between_min_max [1, 2, 3] [3, 1, 2]).1 (by decide),
    (mean_between_min_max [1, 2, 3] [3, 1, 2]).2 (by decide) (by decide) (by decide)⟩

end Assignment1
